import Mathlib

/-!
Verification of the flashcard study application's core logic: answer grading
(Levenshtein-tolerant matching), the Learn/Write session schedulers, the
Test-mode question builder, the Match-pairs minigame, library import
deduplication, and star toggling.  Definitions are shallow embeddings of the
TypeScript sources; random shuffles are injected as function parameters, as
the spec prescribes for the shuffling source.
-/

namespace StudyApp

/-- Mirrors the `Flashcard` interface of `types.ts`; `isStarred` is an optional
boolean there (`isStarred?: boolean`), modelled as `Option Bool`. -/
structure Flashcard where
  id : String
  term : String
  definition : String
  isStarred : Option Bool := none
deriving DecidableEq, Repr

/-- Mirrors the `StudySet` interface of `types.ts`. -/
structure StudySet where
  topic : String
  cards : List Flashcard
deriving DecidableEq, Repr

/-- Inner loop of `calculateLevenshteinDistance` (CreateSet.tsx, WriteMode
section): extends one DP row.  `left` is `matrix[j][i-1]` (just computed),
`diag` is `matrix[j-1][i-1]`, `up :: prevRest` is the previous row from
column `i` on, and the traversed list holds the remaining characters of `a`.
The stored cell is `min(left+1, up+1, diag+substitutionCost)` exactly as in
the source. -/
def editRow (bc : Char) : List Char → Nat → Nat → List Nat → List Nat
  | [], _, _, _ => []
  | _ :: _, _, _, [] => []
  | c :: rest, left, diag, up :: prevRest =>
      min (left + 1) (min (up + 1) (diag + (if c = bc then 0 else 1))) ::
        editRow bc rest (min (left + 1) (min (up + 1) (diag + (if c = bc then 0 else 1))))
          up prevRest

/-- Builds row `j` of the DP table from row `j - 1`: cell `(j, 0)` is `j`
(the second initialisation loop of the source), the rest comes from
`editRow`. -/
def nextRowFrom (a : List Char) (bc : Char) (j : Nat) (prev : List Nat) : List Nat :=
  match prev with
  | [] => [j]
  | p0 :: ps => j :: editRow bc a j p0 ps

/-- Outer loop of the DP: folds over the characters of `b`, carrying the row
index `j` and the previous row. -/
def levRows (a : List Char) : List Char → Nat → List Nat → List Nat
  | [], _, prev => prev
  | bc :: brest, j, prev => levRows a brest (j + 1) (nextRowFrom a bc j prev)

/-- `calculateLevenshteinDistance` from CreateSet.tsx: early returns for empty
strings, then the `(len(a)+1) x (len(b)+1)` dynamic-programming table whose
row 0 is `0, 1, ..., len(a)`; the result is cell
`matrix[b.length][a.length]`, i.e. the last entry of the last row. -/
def calculateLevenshteinDistance (a b : String) : Nat :=
  if a.length = 0 then b.length
  else if b.length = 0 then a.length
  else (levRows a.data b.data 1 (List.range (a.length + 1))).getLastD 0

/-- JavaScript `String.prototype.toLowerCase`, character by character. -/
def jsToLowerCase (s : String) : String := ⟨s.data.map Char.toLower⟩

/-- JavaScript `String.prototype.trim`: strip whitespace from both ends. -/
def jsTrim (s : String) : String :=
  ⟨(((s.data.dropWhile Char.isWhitespace).reverse).dropWhile Char.isWhitespace).reverse⟩

/-- The normalisation `x.trim().toLowerCase()` applied by the grader. -/
def normalize (s : String) : String := jsToLowerCase (jsTrim s)

/-- Answer grading of `WriteMode.handleAnswerSubmit` (CreateSet.tsx): both
strings are trimmed and lowercased; exact match wins, otherwise the
Levenshtein distance is compared with a threshold of 2 for correct terms
longer than 7 characters and 1 otherwise. -/
def grade (userAnswer correctTerm : String) : Bool :=
  if normalize userAnswer = normalize correctTerm then true
  else
    decide (calculateLevenshteinDistance (normalize userAnswer) (normalize correctTerm) ≤
      if (normalize correctTerm).length > 7 then 2 else 1)

/-- Reference definition of Levenshtein distance by the textbook recurrence,
consuming both strings from the front.  Proved below to be the minimum cost
over all edit scripts and to agree with the source's DP. -/
def lev : List Char → List Char → Nat
  | [], ys => ys.length
  | _ :: xs, [] => xs.length + 1
  | x :: xs, y :: ys =>
      min (lev xs (y :: ys) + 1)
        (min (lev (x :: xs) ys + 1) (lev xs ys + (if x = y then 0 else 1)))

/-- Cost-annotated edit scripts: `Edits xs ys n` holds when `xs` can be
transformed into `ys` by `n` single-character insertions, deletions and
substitutions (processed left to right; `keep` costs nothing). -/
inductive Edits : List Char → List Char → Nat → Prop
  | nil : Edits [] [] 0
  | keep (c : Char) {xs ys : List Char} {n : Nat} :
      Edits xs ys n → Edits (c :: xs) (c :: ys) n
  | subst (c d : Char) {xs ys : List Char} {n : Nat} :
      Edits xs ys n → Edits (c :: xs) (d :: ys) (n + 1)
  | del (c : Char) {xs ys : List Char} {n : Nat} :
      Edits xs ys n → Edits (c :: xs) ys (n + 1)
  | ins (d : Char) {xs ys : List Char} {n : Nat} :
      Edits xs ys n → Edits xs (d :: ys) (n + 1)

/-- Prefix-oriented distance: the distance between `p` and `q` read as the
DP table reads them (cell `(j, i)` holds the distance between the length-`i`
prefix of `a` and the length-`j` prefix of `b`). -/
def dEdit (p q : List Char) : Nat := lev p.reverse q.reverse

/-- Tail of one DP row, expressed through `dEdit`: the entries for the
prefixes of `p ++ rest` that properly extend `p`, against the fixed
`b`-prefix `q`. -/
def rowTail (q : List Char) : List Char → List Char → List Nat
  | _, [] => []
  | p, c :: rest => dEdit (p ++ [c]) q :: rowTail q (p ++ [c]) rest

/-- State of `LearnMode` (the three-pool Learn scheduler): the pools and the
current card, as held in the component's useState hooks. -/
structure LearnState where
  unseen : List Flashcard
  learning : List Flashcard
  known : List Flashcard
  currentCard : Option Flashcard
deriving DecidableEq, Repr

/-- `LearnMode.startNewSession`: shuffle the snapshot into `unseen`, clear the
other pools, and present the head of the shuffled list (which stays inside
`unseen`). -/
def startNewSession (shuffle : List Flashcard → List Flashcard)
    (cards : List Flashcard) : LearnState :=
  let shuffled := shuffle cards
  { unseen := shuffled, learning := [], known := [], currentCard := shuffled.head? }

/-- `LearnMode.handleNextStep`.  React batches the queued state updates of one
handler in order, so when the handler runs `setLearning(prev => [...prev,
currentCard])` and later `setLearning(newLearning)`, the second (plain) update
replaces the first: the final `learning` is `newLearning` whenever the
current card was already in the learning pile.  `nextQueue` is computed from
this render's `learning` value, exactly as the closure in the source does. -/
def handleNextStep (shuffle : List Flashcard → List Flashcard)
    (s : LearnState) (wasKnown : Bool) : LearnState :=
  match s.currentCard with
  | none => s
  | some currentCard =>
    let known1 := if wasKnown then s.known ++ [currentCard] else s.known
    let learning1 := if wasKnown then s.learning else s.learning ++ [currentCard]
    let newUnseen := s.unseen.filter (fun c => decide (c.id ≠ currentCard.id))
    let nextQueue1 := if s.learning.length > 0 then shuffle s.learning else newUnseen
    let inLearning := s.learning.any (fun c => decide (c.id = currentCard.id))
    let newLearning := s.learning.filter (fun c => decide (c.id ≠ currentCard.id))
    let learningFinal := if inLearning then newLearning else learning1
    let nextQueue :=
      if inLearning then
        (if newLearning.length > 0 then shuffle newLearning else newUnseen)
      else nextQueue1
    { unseen := newUnseen, learning := learningFinal, known := known1,
      currentCard := nextQueue.head? }

/-- State of `WriteMode` (the two-pool Write scheduler). -/
structure WriteState where
  remainingCards : List Flashcard
  incorrectlyAnswered : List Flashcard
  correctlyAnswered : List Flashcard
  currentCard : Option Flashcard
deriving DecidableEq, Repr

/-- Session start of `WriteMode` (the useEffect over `cards`): shuffle the
snapshot into `remainingCards` and present its head. -/
def writeStart (shuffle : List Flashcard → List Flashcard)
    (cards : List Flashcard) : WriteState :=
  let newSessionCards := shuffle cards
  { remainingCards := newSessionCards, incorrectlyAnswered := [],
    correctlyAnswered := [], currentCard := newSessionCards.head? }

/-- `WriteMode.handleAnswerSubmit` together with the `nextCard` it schedules
via setTimeout.  `nextCard` is the closure of the render in which the answer
was submitted, so it reads this render's `remainingCards` and
`incorrectlyAnswered`; the card just recorded as incorrect (queued through
`setIncorrectlyAnswered(prev => ...)`) is therefore absent from the
`incorrectlyAnswered` list that `nextCard` reshuffles, and the plain
`setIncorrectlyAnswered([])` in its else branch replaces the queued append.
Empty (whitespace-only) input is rejected before grading. -/
def handleAnswerSubmitW (shuffle : List Flashcard → List Flashcard)
    (s : WriteState) (input : String) : WriteState :=
  match s.currentCard with
  | none => s
  | some currentCard =>
    if jsTrim input = "" then s
    else
      let isCorrect := grade input currentCard.term
      let correct1 :=
        if isCorrect then s.correctlyAnswered ++ [currentCard] else s.correctlyAnswered
      let incorrect1 :=
        if isCorrect then s.incorrectlyAnswered else s.incorrectlyAnswered ++ [currentCard]
      let nextQueue :=
        if s.remainingCards.length > 1 then s.remainingCards.drop 1
        else shuffle s.incorrectlyAnswered
      let incorrectFinal := if s.remainingCards.length > 1 then incorrect1 else []
      { remainingCards := nextQueue, incorrectlyAnswered := incorrectFinal,
        correctlyAnswered := correct1, currentCard := nextQueue.head? }

/-- Question kind of TestMode (`'mc' | 'written'`). -/
inductive QuestionType where
  | mc
  | written
deriving DecidableEq, Repr

/-- Mirrors the `Question` interface of TestMode. -/
structure Question where
  id : String
  type : QuestionType
  card : Flashcard
  options : Option (List String)
deriving DecidableEq, Repr

/-- Body of the indexed map inside `TestMode.generateQuestions`: cards at
index below `floor(N/2)` become multiple-choice questions whose options are
the card's own term plus up to three shuffled terms of the other cards;
later indices become written questions. -/
def questionOf (sC : List Flashcard → List Flashcard) (sS : List String → List String)
    (cards : List Flashcard) (index : Nat) (card : Flashcard) : Question :=
  if index < cards.length / 2 then
    { id := card.id, type := QuestionType.mc, card := card,
      options := some (sS (card.term ::
        ((sC (cards.filter (fun c => decide (c.id ≠ card.id)))).take 3).map
          (fun c => c.term))) }
  else
    { id := card.id, type := QuestionType.written, card := card, options := none }

/-- The `.map((card, index) => ...)` of `TestMode.generateQuestions`, written
as explicit recursion with an index counter. -/
def buildQuestions (sC : List Flashcard → List Flashcard) (sS : List String → List String)
    (cards : List Flashcard) : Nat → List Flashcard → List Question
  | _, [] => []
  | index, card :: rest =>
      questionOf sC sS cards index card :: buildQuestions sC sS cards (index + 1) rest

/-- `TestMode.generateQuestions`: map the shuffled snapshot through
`questionOf` and shuffle the resulting question list.  The three injected
shuffles stand for the three uses of `shuffleArray` (on cards, on option
strings, on questions). -/
def generateQuestions (sC : List Flashcard → List Flashcard)
    (sS : List String → List String) (sQ : List Question → List Question)
    (cards : List Flashcard) : List Question :=
  sQ (buildQuestions sC sS cards 0 (sC cards))

/-- Tile kind of MatchMode (`'term' | 'definition'`). -/
inductive TileType where
  | term
  | definition
deriving DecidableEq, Repr

/-- Mirrors the `MatchItem` interface of MatchMode. -/
structure MatchItem where
  id : String
  type : TileType
  content : String
  cardId : String
deriving DecidableEq, Repr

/-- State of `MatchMode` relevant to pairing (best-time handling excluded as
an external collaborator). -/
structure MatchState where
  gridItems : List MatchItem
  selectedItem : Option MatchItem
  matchedIds : List String
  incorrectSelection : Option String
  startTime : Option Nat
  endTime : Option Nat
deriving DecidableEq, Repr

/-- `MatchMode.handleItemClick`: ignore clicks after the game ended or on
matched tiles; start the clock on the first click; select a first tile, or
resolve a pair.  On a mismatch only the transient `incorrectSelection` is set
here (a 500ms timeout later clears it and the selection). -/
def handleItemClick (s : MatchState) (now : Nat) (item : MatchItem) : MatchState :=
  if s.endTime.isSome ∨ item.cardId ∈ s.matchedIds then s
  else
    let s1 := if s.startTime.isNone then { s with startTime := some now } else s
    match s1.selectedItem with
    | none => { s1 with selectedItem := some item }
    | some selectedItem =>
      if selectedItem.cardId = item.cardId ∧ selectedItem.type ≠ item.type then
        { s1 with matchedIds := s1.matchedIds ++ [item.cardId], selectedItem := none }
      else
        { s1 with incorrectSelection := some item.id }

/-- Completion condition of the MatchMode useEffect:
`gridItems.length > 0 && matchedIds.length > 0 &&
matchedIds.length === gridItems.length / 2`; the JavaScript division is
exact (rational), so the last conjunct is `matched * 2 = tiles`. -/
def completionTriggered (gridItems : List MatchItem) (matchedIds : List String) : Bool :=
  decide (0 < gridItems.length) && decide (0 < matchedIds.length) &&
    decide (matchedIds.length * 2 = gridItems.length)

/-- Deduplication and append step of `App.handleFilesSelected`, applied to the
sets parsed and validated from the selected files (`loadedSets`, in file
order): a loaded set is kept unless some set already in the library shares
its topic; the kept sets are appended to the library. -/
def handleFilesSelected (allSets loadedSets : List StudySet) : List StudySet :=
  allSets ++ loadedSets.filter (fun ls => ! allSets.any (fun s => s.topic == ls.topic))

/-- Per-card body of `App.handleToggleStar`'s `updateSet`: JavaScript
`!card.isStarred` sends both `undefined` and `false` to `true`, and the
result is always a present boolean. -/
def toggleCard (cardId : String) (card : Flashcard) : Flashcard :=
  if card.id = cardId then
    { card with isStarred := some (! card.isStarred.getD false) }
  else card

/-- The `updateSet` closure inside `App.handleToggleStar`: map `toggleCard`
over the set's cards, keeping the topic. -/
def updateSet (cardId : String) (s : StudySet) : StudySet :=
  { s with cards := s.cards.map (toggleCard cardId) }

/-! Concrete fixtures used by counterexamples, code-bug evaluations and
witnesses. -/

/-- A sample card. -/
def cardA : Flashcard := { id := "a", term := "alpha", definition := "da", isStarred := some false }

/-- A second sample card. -/
def cardB : Flashcard := { id := "b", term := "beta", definition := "db", isStarred := some false }

/-- Card with a duplicate term (id 1). -/
def cardX1 : Flashcard := { id := "1", term := "x", definition := "d1", isStarred := none }

/-- Card with a duplicate term (id 2). -/
def cardX2 : Flashcard := { id := "2", term := "x", definition := "d2", isStarred := none }

/-- Card whose `isStarred` field is absent, as imported sets may have. -/
def cardNoFlag : Flashcard := { id := "n", term := "nu", definition := "dn", isStarred := none }

/-- A one-card set holding `cardNoFlag`. -/
def setNoFlag : StudySet := { topic := "s", cards := [cardNoFlag] }

/-- A two-card set with present star flags. -/
def setAB : StudySet := { topic := "g", cards := [cardA, cardB] }

/-- A set with topic `t` (first copy). -/
def setTopicT1 : StudySet := { topic := "t", cards := [cardA] }

/-- A set with topic `t` (second copy). -/
def setTopicT2 : StudySet := { topic := "t", cards := [cardB] }

/-- A set with topic `u`. -/
def setTopicU : StudySet := { topic := "u", cards := [cardA] }

/-- The term tile of `cardA`. -/
def tileTermA : MatchItem :=
  { id := "a-term", type := TileType.term, content := "alpha", cardId := "a" }

/-- The definition tile of `cardA`. -/
def tileDefA : MatchItem :=
  { id := "a-def", type := TileType.definition, content := "da", cardId := "a" }

/-- A mid-game MatchMode state with the term tile of `cardA` selected. -/
def matchState0 : MatchState :=
  { gridItems := [tileTermA, tileDefA], selectedItem := some tileTermA, matchedIds := [],
    incorrectSelection := none, startTime := some 0, endTime := none }

/-! Equation lemmas for `lev`. -/

theorem lev_nil_left (ys : List Char) : lev [] ys = ys.length := by
  simp [lev]

theorem lev_cons_nil (x : Char) (xs : List Char) : lev (x :: xs) [] = xs.length + 1 := by
  simp [lev]

theorem lev_nil_right (xs : List Char) : lev xs [] = xs.length := by
  cases xs with
  | nil => simp [lev_nil_left]
  | cons x xs => simp [lev_cons_nil]

theorem lev_cons_cons (x y : Char) (xs ys : List Char) :
    lev (x :: xs) (y :: ys) =
      min (lev xs (y :: ys) + 1)
        (min (lev (x :: xs) ys + 1) (lev xs ys + (if x = y then 0 else 1))) := by
  simp [lev]

/-! `lev` is achieved by some edit script and is minimal among them. -/

theorem edits_all_ins (ys : List Char) : Edits [] ys ys.length := by
  induction ys with
  | nil => exact Edits.nil
  | cons y ys ih => simpa using Edits.ins y ih

theorem edits_all_del (xs : List Char) : Edits xs [] xs.length := by
  induction xs with
  | nil => exact Edits.nil
  | cons x xs ih => simpa using Edits.del x ih

theorem lev_achieves : ∀ xs ys : List Char, Edits xs ys (lev xs ys) := by
  intro xs
  induction xs with
  | nil =>
    intro ys
    simpa [lev_nil_left] using edits_all_ins ys
  | cons x xs ihx =>
    intro ys
    induction ys with
    | nil =>
      simpa [lev_cons_nil] using edits_all_del (x :: xs)
    | cons y ys ihy =>
      rw [lev_cons_cons]
      rcases le_total (lev xs (y :: ys) + 1)
          (min (lev (x :: xs) ys + 1) (lev xs ys + (if x = y then 0 else 1))) with h | h
      · rw [min_eq_left h]
        exact Edits.del x (ihx (y :: ys))
      · rw [min_eq_right h]
        rcases le_total (lev (x :: xs) ys + 1) (lev xs ys + (if x = y then 0 else 1)) with
          h2 | h2
        · rw [min_eq_left h2]
          exact Edits.ins y ihy
        · rw [min_eq_right h2]
          by_cases hxy : x = y
          · subst hxy
            simpa using Edits.keep x (ihx ys)
          · simpa [hxy] using Edits.subst x y (ihx ys)

theorem lev_minimal {xs ys : List Char} {n : Nat} (h : Edits xs ys n) : lev xs ys ≤ n := by
  induction h with
  | nil => simp [lev_nil_left]
  | keep c h ih =>
    rename_i xs' ys' n'
    rw [lev_cons_cons]
    have h3 : lev xs' ys' + (if c = c then 0 else 1) ≤ n' := by simpa using ih
    exact le_trans (le_trans (min_le_right _ _) (min_le_right _ _)) h3
  | subst c d h ih =>
    rw [lev_cons_cons]
    refine le_trans (le_trans (min_le_right _ _) (min_le_right _ _)) ?_
    have hcost : (if c = d then 0 else 1) ≤ 1 := by split <;> omega
    omega
  | del c h ih =>
    rename_i xs' ys' n'
    cases ys' with
    | nil =>
      rw [lev_cons_nil]
      rw [lev_nil_right] at ih
      omega
    | cons y ys'' =>
      rw [lev_cons_cons]
      exact le_trans (min_le_left _ _) (by omega)
  | ins d h ih =>
    rename_i xs' ys' n'
    cases xs' with
    | nil =>
      rw [lev_nil_left]
      rw [lev_nil_left] at ih
      simp only [List.length_cons]
      omega
    | cons x xs'' =>
      rw [lev_cons_cons]
      exact le_trans (le_trans (min_le_right _ _) (min_le_left _ _)) (by omega)

/-! Edit scripts are preserved by appending a final character and hence by
reversal, so `dEdit = lev on reversed lists` is also the minimum script
cost. -/

theorem edits_snoc_keep {xs ys : List Char} {n : Nat} (c : Char) (h : Edits xs ys n) :
    Edits (xs ++ [c]) (ys ++ [c]) n := by
  induction h with
  | nil => exact Edits.keep c Edits.nil
  | keep a h ih => exact Edits.keep a ih
  | subst a b h ih => exact Edits.subst a b ih
  | del a h ih => exact Edits.del a ih
  | ins b h ih => exact Edits.ins b ih

theorem edits_snoc_subst {xs ys : List Char} {n : Nat} (c d : Char) (h : Edits xs ys n) :
    Edits (xs ++ [c]) (ys ++ [d]) (n + 1) := by
  induction h with
  | nil => exact Edits.subst c d Edits.nil
  | keep a h ih => exact Edits.keep a ih
  | subst a b h ih => exact Edits.subst a b ih
  | del a h ih => exact Edits.del a ih
  | ins b h ih => exact Edits.ins b ih

theorem edits_snoc_del {xs ys : List Char} {n : Nat} (c : Char) (h : Edits xs ys n) :
    Edits (xs ++ [c]) ys (n + 1) := by
  induction h with
  | nil => exact Edits.del c Edits.nil
  | keep a h ih => exact Edits.keep a ih
  | subst a b h ih => exact Edits.subst a b ih
  | del a h ih => exact Edits.del a ih
  | ins b h ih => exact Edits.ins b ih

theorem edits_snoc_ins {xs ys : List Char} {n : Nat} (d : Char) (h : Edits xs ys n) :
    Edits xs (ys ++ [d]) (n + 1) := by
  induction h with
  | nil => exact Edits.ins d Edits.nil
  | keep a h ih => exact Edits.keep a ih
  | subst a b h ih => exact Edits.subst a b ih
  | del a h ih => exact Edits.del a ih
  | ins b h ih => exact Edits.ins b ih

theorem edits_reverse {xs ys : List Char} {n : Nat} (h : Edits xs ys n) :
    Edits xs.reverse ys.reverse n := by
  induction h with
  | nil => exact Edits.nil
  | keep a h ih => simpa [List.reverse_cons] using edits_snoc_keep a ih
  | subst a b h ih => simpa [List.reverse_cons] using edits_snoc_subst a b ih
  | del a h ih => simpa [List.reverse_cons] using edits_snoc_del a ih
  | ins b h ih => simpa [List.reverse_cons] using edits_snoc_ins b ih

theorem dEdit_achieves (p q : List Char) : Edits p q (dEdit p q) := by
  have h := edits_reverse (lev_achieves p.reverse q.reverse)
  simpa [dEdit] using h

theorem dEdit_minimal {p q : List Char} {n : Nat} (h : Edits p q n) : dEdit p q ≤ n :=
  lev_minimal (edits_reverse h)

/-! `dEdit` satisfies the prefix-extension recurrence that the DP rows use. -/

theorem dEdit_nil_left (q : List Char) : dEdit [] q = q.length := by
  simp [dEdit, lev_nil_left]

theorem dEdit_nil_right (p : List Char) : dEdit p [] = p.length := by
  simp [dEdit, lev_nil_right]

theorem dEdit_snoc_snoc (p q : List Char) (c bc : Char) :
    dEdit (p ++ [c]) (q ++ [bc]) =
      min (dEdit p (q ++ [bc]) + 1)
        (min (dEdit (p ++ [c]) q + 1) (dEdit p q + (if c = bc then 0 else 1))) := by
  simp only [dEdit, List.reverse_append, List.reverse_singleton, List.singleton_append]
  exact lev_cons_cons c bc p.reverse q.reverse

/-! The DP of the source computes `dEdit`: row invariant and final cell. -/

theorem editRow_spec (bc : Char) (q : List Char) :
    ∀ rest p : List Char,
      editRow bc rest (dEdit p (q ++ [bc])) (dEdit p q) (rowTail q p rest) =
        rowTail (q ++ [bc]) p rest := by
  intro rest
  induction rest with
  | nil => intro p; simp [editRow, rowTail]
  | cons c rest ih =>
    intro p
    have hv : min (dEdit p (q ++ [bc]) + 1)
        (min (dEdit (p ++ [c]) q + 1) (dEdit p q + (if c = bc then 0 else 1))) =
          dEdit (p ++ [c]) (q ++ [bc]) := (dEdit_snoc_snoc p q c bc).symm
    simp only [rowTail, editRow]
    rw [hv, ih (p ++ [c])]

theorem levRows_spec (a : List Char) :
    ∀ brest q : List Char,
      levRows a brest (q.length + 1) (dEdit [] q :: rowTail q [] a) =
        dEdit [] (q ++ brest) :: rowTail (q ++ brest) [] a := by
  intro brest
  induction brest with
  | nil => intro q; simp [levRows]
  | cons bc brest ih =>
    intro q
    have hlen : dEdit [] (q ++ [bc]) = q.length + 1 := by
      simp [dEdit_nil_left]
    have hrow : nextRowFrom a bc (q.length + 1) (dEdit [] q :: rowTail q [] a) =
        dEdit [] (q ++ [bc]) :: rowTail (q ++ [bc]) [] a := by
      simp only [nextRowFrom]
      rw [hlen.symm] at *
      rw [show editRow bc a (dEdit [] (q ++ [bc])) (dEdit [] q) (rowTail q [] a) =
        rowTail (q ++ [bc]) [] a from editRow_spec bc q a []]
    simp only [levRows, hrow]
    have := ih (q ++ [bc])
    rw [show (q ++ [bc]).length + 1 = q.length + 1 + 1 by simp] at this
    rw [this]
    simp

theorem rowTail_nil_q : ∀ rest p : List Char,
    rowTail [] p rest = List.range' (p.length + 1) rest.length := by
  intro rest
  induction rest with
  | nil => intro p; simp [rowTail]
  | cons c rest ih =>
    intro p
    simp only [rowTail, dEdit_nil_right, List.length_append, List.length_singleton,
      List.length_cons]
    rw [ih (p ++ [c])]
    simp [List.range'_succ]

theorem row_zero_eq (a : List Char) :
    dEdit [] [] :: rowTail [] [] a = List.range (a.length + 1) := by
  rw [rowTail_nil_q a [], dEdit_nil_left]
  rw [List.range_eq_range']
  simp [List.range'_succ]

theorem getLastD_rowTail (q : List Char) :
    ∀ (rest p : List Char) (d : Nat),
      (dEdit p q :: rowTail q p rest).getLastD d = dEdit (p ++ rest) q := by
  intro rest
  induction rest with
  | nil => intro p d; simp [rowTail]
  | cons c rest ih =>
    intro p d
    simp only [rowTail]
    rw [List.getLastD_cons, ih (p ++ [c]) (dEdit p q)]
    simp

theorem calc_eq_dEdit (a b : String) :
    calculateLevenshteinDistance a b = dEdit a.data b.data := by
  have hlena : a.length = a.data.length := rfl
  have hlenb : b.length = b.data.length := rfl
  by_cases ha : a.length = 0
  · have hdata : a.data = [] := List.eq_nil_of_length_eq_zero (hlena ▸ ha)
    unfold calculateLevenshteinDistance
    rw [if_pos ha, hdata, dEdit_nil_left, hlenb]
  · by_cases hb : b.length = 0
    · have hdata : b.data = [] := List.eq_nil_of_length_eq_zero (hlenb ▸ hb)
      unfold calculateLevenshteinDistance
      rw [if_neg ha, if_pos hb, hdata, dEdit_nil_right, hlena]
    · unfold calculateLevenshteinDistance
      rw [if_neg ha, if_neg hb, hlena, ← row_zero_eq a.data]
      have hspec := levRows_spec a.data b.data []
      simp only [List.length_nil, Nat.zero_add, List.nil_append] at hspec
      rw [hspec, getLastD_rowTail b.data a.data [] 0, List.nil_append]

/-- C2: for every pair of strings, `calculateLevenshteinDistance` equals the
Levenshtein edit distance: it is the cost of some edit script transforming
`a` into `b` made of single-character insertions, deletions and
substitutions, and no such script costs less. -/
theorem calculateLevenshteinDistance_is_min_edits (a b : String) :
    Edits a.data b.data (calculateLevenshteinDistance a b) ∧
      ∀ n, Edits a.data b.data n → calculateLevenshteinDistance a b ≤ n := by
  rw [calc_eq_dEdit]
  exact ⟨dEdit_achieves _ _, fun n h => dEdit_minimal h⟩

/-- C1: the Write-mode grader accepts a submitted answer if and only if,
after trimming and lowercasing both strings, they are identical or their
Levenshtein edit distance (the least cost of an edit script) is at most the
threshold, which is 2 when the normalised correct term is longer than 7
characters and 1 otherwise; the grader is a total boolean function. -/
theorem grade_spec (userAnswer correctTerm : String) :
    grade userAnswer correctTerm = true ↔
      (normalize userAnswer = normalize correctTerm ∨
        ∃ n, Edits (normalize userAnswer).data (normalize correctTerm).data n ∧
          n ≤ if (normalize correctTerm).length > 7 then 2 else 1) := by
  unfold grade
  by_cases h : normalize userAnswer = normalize correctTerm
  · simp [h]
  · rw [if_neg h]
    simp only [decide_eq_true_eq, h, false_or]
    rw [calc_eq_dEdit]
    constructor
    · intro hle
      exact ⟨dEdit (normalize userAnswer).data (normalize correctTerm).data,
        dEdit_achieves _ _, hle⟩
    · rintro ⟨n, hn, hle⟩
      exact le_trans (dEdit_minimal hn) hle

/-- C6 counterexample: the spec asserts `grade("recieve", "receive") == true`
with "distance 1", but the transposition costs 2 Levenshtein edits while the
7-character term "receive" gets threshold 1, so the code rejects it. -/
theorem grade_recieve_receive_false : grade "recieve" "receive" = false := by decide

/-- C6 amended: the grader rejects "recieve" for "receive" (Levenshtein
distance 2, threshold 1 for the 7-character term) and also rejects "recieve"
for "deceive" (distance exceeds the threshold), as the code computes. -/
theorem grade_recieve_both_rejected :
    grade "recieve" "receive" = false ∧
      grade "recieve" "deceive" = false ∧
      calculateLevenshteinDistance "recieve" "receive" = 2 := by
  refine ⟨by decide, by decide, by decide⟩

/-- C3: code bug.  Marking a card that sits in the learning pool as "still
learning" once more loses it from every pool: the handler queues
`setLearning(prev => [...prev, currentCard])` but then overwrites the queued
value with `setLearning(newLearning)` where `newLearning` excludes the card.
With snapshot `[cardA, cardB]` (identity shuffle) and three "still learning"
answers, `cardA` is in no pool and is not the current card, violating the
exactly-one-pool invariant. -/
theorem learn_card_lost :
    handleNextStep id (handleNextStep id (handleNextStep id
        (startNewSession id [cardA, cardB]) false) false) false =
      { unseen := [], learning := [cardB], known := [], currentCard := some cardB } := by
  decide

/-- C4: code bug.  A one-card session whose card is marked "still learning"
ends immediately (`currentCard = none`, so the results screen renders) while
the learning pool is non-empty and the known pool does not equal the
snapshot: `handleNextStep` picks the next card from this render's stale
(empty) `learning` value instead of the pool it just filled. -/
theorem learn_completes_without_mastery :
    handleNextStep id (startNewSession id [cardA]) false =
      { unseen := [], learning := [cardA], known := [], currentCard := none } := by
  decide

/-- C5: code bug.  When the last card of a round is answered incorrectly, the
delayed `nextCard` closure reshuffles the stale `incorrectlyAnswered` list
(which does not yet contain the miss) and clears the pool, so the card never
reappears: a one-card session whose only card is answered wrongly reaches
the "Set Complete!" state (`currentCard = none`) with the card never
answered correctly. -/
theorem write_completes_without_correct :
    handleAnswerSubmitW id (writeStart id [cardA]) "zzz" =
      { remainingCards := [], incorrectlyAnswered := [], correctlyAnswered := [],
        currentCard := none } := by
  decide

/-- C8: with a first tile selected in an active Match game and a click on an
unmatched tile, the clicked tile's card id is appended to the matched list
exactly when the two tiles reference the same card id with different tile
types; any other pair leaves the matched list unchanged and only sets the
transient incorrect-display state; and for a non-empty grid the completion
condition holds exactly when twice the matched-card count equals the tile
count. -/
theorem handleItemClick_spec (s : MatchState) (now : Nat) (item sel : MatchItem)
    (hsel : s.selectedItem = some sel) (hend : s.endTime = none)
    (hnew : item.cardId ∉ s.matchedIds) :
    ((sel.cardId = item.cardId ∧ sel.type ≠ item.type) →
        (handleItemClick s now item).matchedIds = s.matchedIds ++ [item.cardId]) ∧
      (¬ (sel.cardId = item.cardId ∧ sel.type ≠ item.type) →
        (handleItemClick s now item).matchedIds = s.matchedIds ∧
          (handleItemClick s now item).incorrectSelection = some item.id) ∧
      (∀ grid : List MatchItem, grid ≠ [] → ∀ matched : List String,
        (completionTriggered grid matched = true ↔ matched.length * 2 = grid.length)) := by
  have hcomp : ∀ grid : List MatchItem, grid ≠ [] → ∀ matched : List String,
      (completionTriggered grid matched = true ↔ matched.length * 2 = grid.length) := by
    intro grid hg matched
    have hpos : 0 < grid.length := List.length_pos.mpr hg
    unfold completionTriggered
    simp only [Bool.and_eq_true, decide_eq_true_eq]
    constructor
    · rintro ⟨⟨-, -⟩, h⟩
      exact h
    · intro h
      exact ⟨⟨hpos, by omega⟩, h⟩
  obtain ⟨grid, selOpt, matched, inc, st, et⟩ := s
  dsimp only at hsel hend hnew
  subst hsel hend
  refine ⟨?_, ?_, hcomp⟩
  · rintro ⟨h1, h2⟩
    cases st <;> simp [handleItemClick, hnew, h1, h2]
  · intro hcond
    cases st <;> simp [handleItemClick, hnew, hcond]

/-- C8 witness: clicking the definition tile of card `a` while its term tile
is selected records the match. -/
theorem handleItemClick_spec_witness :
    (handleItemClick matchState0 3 tileDefA).matchedIds = ["a"] := by
  have h := (handleItemClick_spec matchState0 3 tileDefA tileTermA rfl rfl
    (by decide)).1 (by decide)
  simpa using h

/-- C9 counterexample: two same-topic sets inside one import batch are both
kept (the filter only consults the pre-import library), so the second loaded
set with a duplicated topic is not dropped and two kept sets share a
topic. -/
theorem import_batch_duplicates_kept :
    handleFilesSelected [] [setTopicT1, setTopicT2] = [setTopicT1, setTopicT2] ∧
      setTopicT1.topic = setTopicT2.topic ∧ setTopicT1 ≠ setTopicT2 := by
  refine ⟨by decide, by decide, by decide⟩

/-- C9 amended: the library segment is preserved unchanged, and a loaded set
is kept in the appended batch segment if and only if no set already in the
library before the import shares its topic; loaded sets are not
deduplicated against each other within the batch. -/
theorem handleFilesSelected_spec (allSets loadedSets : List StudySet) (ls : StudySet)
    (hls : ls ∈ loadedSets) :
    (handleFilesSelected allSets loadedSets).take allSets.length = allSets ∧
      (ls ∈ (handleFilesSelected allSets loadedSets).drop allSets.length ↔
        ∀ s ∈ allSets, s.topic ≠ ls.topic) := by
  unfold handleFilesSelected
  refine ⟨List.take_left allSets _, ?_⟩
  rw [List.drop_left]
  simp only [List.mem_filter, hls, true_and, Bool.not_eq_true']
  rw [List.any_eq_false]
  constructor
  · intro h s hs
    simpa using h s hs
  · intro h s hs
    simpa using h s hs

/-- C9 witness: a loaded set whose topic is new relative to the pre-import
library lands in the appended batch segment. -/
theorem handleFilesSelected_spec_witness :
    setTopicT2 ∈ (handleFilesSelected [setTopicU] [setTopicT2]).drop 1 := by
  have h := handleFilesSelected_spec [setTopicU] [setTopicT2] setTopicT2 (by decide)
  exact h.2.mpr (by decide)

/-- Double application of `toggleCard` is the identity on a card whose
`isStarred` field is present whenever it matches. -/
theorem toggleCard_involutive (cardId : String) (c : Flashcard)
    (h : c.id = cardId → c.isStarred ≠ none) :
    toggleCard cardId (toggleCard cardId c) = c := by
  cases c with
  | mk id term definition isStarred =>
    by_cases hid : id = cardId
    · cases isStarred with
      | none => exact absurd rfl (h hid)
      | some b => simp [toggleCard, hid]
    · simp [toggleCard, hid]

/-- Double application of the card-map over a whole list, under the same
presence condition. -/
theorem map_toggleCard_involutive (cardId : String) :
    ∀ cs : List Flashcard, (∀ c ∈ cs, c.id = cardId → c.isStarred ≠ none) →
      List.map (toggleCard cardId) (List.map (toggleCard cardId) cs) = cs := by
  intro cs
  induction cs with
  | nil => intro _; rfl
  | cons c rest ih =>
    intro hcs
    simp only [List.map_cons]
    rw [toggleCard_involutive cardId c (hcs c (by simp)),
      ih (fun c hc => hcs c (List.mem_cons_of_mem _ hc))]

/-- C10 counterexample: on a card whose optional `isStarred` field is absent,
toggling twice produces `isStarred = false` rather than the original absent
field, so the toggle is not an involution on the set state. -/
theorem toggleStar_not_involutive :
    updateSet "n" (updateSet "n" setNoFlag) ≠ setNoFlag := by decide

/-- C10 amended: toggling a card id changes nothing but the `isStarred` flag
of the cards bearing that id (topic, card order, ids, terms, definitions and
all other cards' flags are untouched), the new flag is the negated JavaScript
truthiness of the old one (always a present boolean), and the toggle is an
involution whenever every card with that id has its flag present; with an
absent flag two toggles yield `some false` instead (see the
counterexample). -/
theorem updateSet_spec (cardId : String) (s : StudySet) :
    (updateSet cardId s).topic = s.topic ∧
      (updateSet cardId s).cards.length = s.cards.length ∧
      (∀ (i : Nat) (c : Flashcard), s.cards[i]? = some c → c.id ≠ cardId →
        (updateSet cardId s).cards[i]? = some c) ∧
      (∀ (i : Nat) (c : Flashcard), s.cards[i]? = some c → c.id = cardId →
        (updateSet cardId s).cards[i]? =
          some { c with isStarred := some (! c.isStarred.getD false) }) ∧
      ((∀ c ∈ s.cards, c.id = cardId → c.isStarred ≠ none) →
        updateSet cardId (updateSet cardId s) = s) := by
  refine ⟨rfl, by simp [updateSet], ?_, ?_, ?_⟩
  · intro i c hc hne
    simp [updateSet, List.getElem?_map, hc, toggleCard, hne]
  · intro i c hc heq
    simp [updateSet, List.getElem?_map, hc, toggleCard, heq]
  · intro hall
    have hmap := map_toggleCard_involutive cardId s.cards hall
    unfold updateSet
    simp only []
    rw [hmap]

/-! Test-mode question-builder lemmas (C7). -/

theorem buildQuestions_length (sC : List Flashcard → List Flashcard)
    (sS : List String → List String) (cards : List Flashcard) :
    ∀ (l : List Flashcard) (i : Nat), (buildQuestions sC sS cards i l).length = l.length := by
  intro l
  induction l with
  | nil => intro i; rfl
  | cons card rest ih => intro i; simp [buildQuestions, ih (i + 1)]

theorem buildQuestions_countP_mc (sC : List Flashcard → List Flashcard)
    (sS : List String → List String) (cards : List Flashcard) :
    ∀ (l : List Flashcard) (i : Nat),
      (buildQuestions sC sS cards i l).countP (fun q => decide (q.type = QuestionType.mc)) =
        min l.length (cards.length / 2 - i) := by
  intro l
  induction l with
  | nil => intro i; simp [buildQuestions]
  | cons card rest ih =>
    intro i
    by_cases hi : i < cards.length / 2
    · simp only [buildQuestions, List.countP_cons, ih (i + 1), questionOf, if_pos hi]
      simp only [List.length_cons]
      simp
      omega
    · simp only [buildQuestions, List.countP_cons, ih (i + 1), questionOf, if_neg hi]
      simp only [List.length_cons]
      simp
      omega

theorem countP_written_eq (l : List Question) :
    l.countP (fun q => decide (q.type = QuestionType.written)) =
      l.length - l.countP (fun q => decide (q.type = QuestionType.mc)) := by
  induction l with
  | nil => simp
  | cons q rest ih =>
    have hle : List.countP (fun q => decide (q.type = QuestionType.mc)) rest ≤ rest.length :=
      List.countP_le_length _
    cases hq : q.type <;> (simp [List.countP_cons, hq, ih]; try omega)

theorem buildQuestions_mem (sC : List Flashcard → List Flashcard)
    (sS : List String → List String) (cards : List Flashcard) :
    ∀ (l : List Flashcard) (i : Nat) (q : Question), q ∈ buildQuestions sC sS cards i l →
      ∃ (j : Nat) (card : Flashcard), card ∈ l ∧ q = questionOf sC sS cards j card := by
  intro l
  induction l with
  | nil => intro i q hq; cases hq
  | cons card rest ih =>
    intro i q hq
    rcases List.mem_cons.mp hq with hq1 | hq2
    · exact ⟨i, card, List.mem_cons_self card rest, hq1⟩
    · obtain ⟨j, c, hc, hqc⟩ := ih (i + 1) q hq2
      exact ⟨j, c, List.mem_cons_of_mem card hc, hqc⟩

theorem length_filter_ne_id (x : Flashcard) :
    ∀ cards : List Flashcard, (cards.map (fun c => c.id)).Nodup → x ∈ cards →
      (cards.filter (fun c => decide (c.id ≠ x.id))).length = cards.length - 1 := by
  intro cards
  induction cards with
  | nil => intro _ h; cases h
  | cons a rest ih =>
    intro hnd hmem
    have hnd2 := hnd
    rw [List.map_cons, List.nodup_cons] at hnd2
    obtain ⟨hhead, htail⟩ := hnd2
    rcases List.mem_cons.mp hmem with rfl | hmem2
    · have hkeep : rest.filter (fun c => decide (c.id ≠ x.id)) = rest := by
        apply List.filter_eq_self.mpr
        intro c hc
        simp only [decide_eq_true_eq]
        intro hcc
        exact hhead (hcc ▸ List.mem_map_of_mem (fun c => c.id) hc)
      rw [List.filter_cons, if_neg (by simp), hkeep]
      simp
    · have hane : a.id ≠ x.id := by
        intro he
        exact hhead (he ▸ List.mem_map_of_mem (fun c => c.id) hmem2)
      have hrest := ih htail hmem2
      have hpos : 0 < rest.length := List.length_pos.mpr (List.ne_nil_of_mem hmem2)
      rw [List.filter_cons, if_pos (by simpa using hane)]
      simp only [List.length_cons, hrest]
      omega

theorem term_not_mem_wrong (sC : List Flashcard → List Flashcard)
    (hC : ∀ l : List Flashcard, List.Perm (sC l) l)
    (cards : List Flashcard) (card : Flashcard)
    (hterm : (cards.map (fun c => c.term)).Nodup) (hcard : card ∈ cards) :
    card.term ∉ ((sC (cards.filter (fun c => decide (c.id ≠ card.id)))).take 3).map
      (fun c => c.term) := by
  intro hmem
  rcases List.mem_map.mp hmem with ⟨c, hc, hterm_eq⟩
  have hc2 : c ∈ sC (cards.filter (fun c => decide (c.id ≠ card.id))) :=
    List.mem_of_mem_take hc
  have hc3 : c ∈ cards.filter (fun c => decide (c.id ≠ card.id)) :=
    ((hC _).mem_iff).mp hc2
  rcases List.mem_filter.mp hc3 with ⟨hc4, hc5⟩
  have hne : c.id ≠ card.id := of_decide_eq_true hc5
  have hceq : c = card := List.inj_on_of_nodup_map hterm hc4 hcard hterm_eq
  exact hne (hceq ▸ rfl)

/-- C7 counterexample: two cards with distinct ids but the same term "x"
(identity shuffles, a legitimate permutation outcome) give a multiple-choice
question whose option list contains its own card's term twice, refuting
"exactly once". -/
theorem generateQuestions_duplicate_term :
    (generateQuestions id id id [cardX1, cardX2])[0]?.map
        (fun q => (q.type, q.options, (q.options.getD []).count q.card.term)) =
      some (QuestionType.mc, some ["x", "x"], 2) := by decide

/-- C7 amended: for any permutation-shuffles, a snapshot of `N` cards with
pairwise-distinct ids and pairwise-distinct terms yields exactly
`floor(N/2)` multiple-choice and `N - floor(N/2)` free-text questions, and
every multiple-choice question's option list contains its own card's term
exactly once among `1 + min 3 (N - 1)` options (so nothing degenerates for
snapshots of fewer than 4 cards); without the distinct-terms assumption the
own term can occur more than once (see the counterexample). -/
theorem generateQuestions_spec (sC : List Flashcard → List Flashcard)
    (sS : List String → List String) (sQ : List Question → List Question)
    (hC : ∀ l : List Flashcard, List.Perm (sC l) l)
    (hS : ∀ l : List String, List.Perm (sS l) l)
    (hQ : ∀ l : List Question, List.Perm (sQ l) l)
    (cards : List Flashcard)
    (hid : (cards.map (fun c => c.id)).Nodup)
    (hterm : (cards.map (fun c => c.term)).Nodup) :
    (generateQuestions sC sS sQ cards).countP (fun q => decide (q.type = QuestionType.mc)) =
        cards.length / 2 ∧
      (generateQuestions sC sS sQ cards).countP
          (fun q => decide (q.type = QuestionType.written)) =
        cards.length - cards.length / 2 ∧
      ∀ q ∈ generateQuestions sC sS sQ cards, q.type = QuestionType.mc →
        ∃ opts, q.options = some opts ∧ opts.count q.card.term = 1 ∧
          opts.length = 1 + min 3 (cards.length - 1) := by
  have hlen : (sC cards).length = cards.length := (hC cards).length_eq
  have hmc : (generateQuestions sC sS sQ cards).countP
      (fun q => decide (q.type = QuestionType.mc)) = cards.length / 2 := by
    unfold generateQuestions
    rw [(hQ _).countP_eq, buildQuestions_countP_mc sC sS cards (sC cards) 0, hlen]
    have hhalf : cards.length / 2 ≤ cards.length := Nat.div_le_self _ _
    omega
  refine ⟨hmc, ?_, ?_⟩
  · unfold generateQuestions
    rw [(hQ _).countP_eq, countP_written_eq, buildQuestions_length,
      buildQuestions_countP_mc sC sS cards (sC cards) 0, hlen]
    have hhalf : cards.length / 2 ≤ cards.length := Nat.div_le_self _ _
    omega
  · intro q hq hqt
    have hq2 : q ∈ buildQuestions sC sS cards 0 (sC cards) := ((hQ _).mem_iff).mp hq
    obtain ⟨j, card, hcard_mem, rfl⟩ := buildQuestions_mem sC sS cards (sC cards) 0 q hq2
    have hcard : card ∈ cards := ((hC cards).mem_iff).mp hcard_mem
    by_cases hj : j < cards.length / 2
    · refine ⟨sS (card.term ::
        ((sC (cards.filter (fun c => decide (c.id ≠ card.id)))).take 3).map
          (fun c => c.term)), ?_, ?_, ?_⟩
      · simp [questionOf, hj]
      · have hccard : (questionOf sC sS cards j card).card = card := by
          simp [questionOf, hj]
        rw [hccard, (hS _).count_eq, List.count_cons_self,
          List.count_eq_zero.mpr (term_not_mem_wrong sC hC cards card hterm hcard)]
      · rw [(hS _).length_eq]
        simp only [List.length_cons, List.length_map, List.length_take,
          (hC _).length_eq, length_filter_ne_id card cards hid hcard]
        omega
    · exfalso
      have : (questionOf sC sS cards j card).type = QuestionType.written := by
        simp [questionOf, hj]
      rw [this] at hqt
      exact absurd hqt (by decide)

/-- C7 witness: a two-card snapshot with distinct ids and terms under the
identity shuffles produces exactly one multiple-choice question. -/
theorem generateQuestions_spec_witness :
    (generateQuestions id id id [cardA, cardB]).countP
        (fun q => decide (q.type = QuestionType.mc)) = 1 := by
  have h := generateQuestions_spec id id id (fun l => List.Perm.refl l)
    (fun l => List.Perm.refl l) (fun l => List.Perm.refl l) [cardA, cardB]
    (by decide) (by decide)
  simpa using h.1

end StudyApp
